import Mathlib

/-!
Verification of the Korean conjugation transducer (`conjugator.py`,
`utils.py` and the rule modules under `rules/`).

Python strings are embedded as `List Char` (`Str`).  Each Python function
is translated into a Lean function of the same name; optional arguments
(`tag`, `prev_word`) become `Option Str`, and Python functions that can
return `None` become `Option Str`-valued.  All definitions are executable.
-/

namespace Conj

/-- Python strings are modelled as lists of unicode characters. -/
abbrev Str := List Char

/-! ## utils.py : constants -/

def HANGUL_BASE : Nat := 0xAC00
def HANGUL_END : Nat := 0xD7A3
def COMPAT_JAMO_BASE : Nat := 0x3131
def COMPAT_JAMO_END : Nat := 0x318E

def CHOSUNG_LIST : List Char :=
  ['ㄱ', 'ㄲ', 'ㄴ', 'ㄷ', 'ㄸ', 'ㄹ', 'ㅁ', 'ㅂ', 'ㅃ', 'ㅅ', 'ㅆ', 'ㅇ', 'ㅈ', 'ㅉ',
   'ㅊ', 'ㅋ', 'ㅌ', 'ㅍ', 'ㅎ']

def JUNGSUNG_LIST : List Char :=
  ['ㅏ', 'ㅐ', 'ㅑ', 'ㅒ', 'ㅓ', 'ㅔ', 'ㅕ', 'ㅖ', 'ㅗ', 'ㅘ', 'ㅙ', 'ㅚ', 'ㅛ', 'ㅜ',
   'ㅝ', 'ㅞ', 'ㅟ', 'ㅠ', 'ㅡ', 'ㅢ', 'ㅣ']

/-- `JONGSUNG_LIST` from the source: index 0 is the empty string. -/
def JONGSUNG_LIST : List Str :=
  [[], ['ㄱ'], ['ㄲ'], ['ㄳ'], ['ㄴ'], ['ㄵ'], ['ㄶ'], ['ㄷ'], ['ㄹ'], ['ㄺ'], ['ㄻ'],
   ['ㄼ'], ['ㄽ'], ['ㄾ'], ['ㄿ'], ['ㅀ'], ['ㅁ'], ['ㅂ'], ['ㅄ'], ['ㅅ'], ['ㅆ'],
   ['ㅇ'], ['ㅈ'], ['ㅊ'], ['ㅋ'], ['ㅌ'], ['ㅍ'], ['ㅎ']]

/-- The non-empty entries of `JONGSUNG_LIST` as characters (the keys of
`JONGSUNG_DICT` a single character can be equal to). -/
def JONGSUNG_CHARS : List Char :=
  ['ㄱ', 'ㄲ', 'ㄳ', 'ㄴ', 'ㄵ', 'ㄶ', 'ㄷ', 'ㄹ', 'ㄺ', 'ㄻ', 'ㄼ', 'ㄽ', 'ㄾ', 'ㄿ',
   'ㅀ', 'ㅁ', 'ㅂ', 'ㅄ', 'ㅅ', 'ㅆ', 'ㅇ', 'ㅈ', 'ㅊ', 'ㅋ', 'ㅌ', 'ㅍ', 'ㅎ']

/-- Single-character strings of `CHOSUNG_LIST` (the keys of `CHOSUNG_DICT`). -/
def CHOSUNG_STRS : List Str := CHOSUNG_LIST.map (fun c => [c])

/-- Single-character strings of `JUNGSUNG_LIST` (the keys of `JUNGSUNG_DICT`). -/
def JUNGSUNG_STRS : List Str := JUNGSUNG_LIST.map (fun c => [c])

/-! ## utils.py : predicates and codec -/

/-- `is_hangul` on a single character. -/
def is_hangul (c : Char) : Bool :=
  HANGUL_BASE ≤ c.toNat && c.toNat ≤ HANGUL_END

/-- `is_jamo` on a single character (compatibility jamo block). -/
def is_jamo (c : Char) : Bool :=
  COMPAT_JAMO_BASE ≤ c.toNat && c.toNat ≤ COMPAT_JAMO_END

/-- `is_consonant_jamo`: member of `CHOSUNG_LIST` or of `JONGSUNG_LIST[1:]`. -/
def is_consonant_jamo (c : Char) : Bool :=
  c ∈ CHOSUNG_LIST || c ∈ JONGSUNG_CHARS

/-- `is_vowel_jamo`: member of `JUNGSUNG_LIST`. -/
def is_vowel_jamo (c : Char) : Bool :=
  c ∈ JUNGSUNG_LIST

/-- `decompose(char)`: split a Hangul syllable into (chosung, jungsung,
jongsung), each a (possibly empty) string; non-Hangul input is returned
as `(char, '', '')`.  The source indexes the jamo lists directly; the
indices are in range for every Hangul syllable, so the `getD` defaults
are never used there. -/
def decompose (c : Char) : Str × Str × Str :=
  if is_hangul c then
    let code := c.toNat - HANGUL_BASE
    let jongsung_idx := code % 28
    let jungsung_idx := ((code - jongsung_idx) / 28) % 21
    let chosung_idx := ((code - jongsung_idx) / 28) / 21
    ([CHOSUNG_LIST.getD chosung_idx 'ㄱ'],
     [JUNGSUNG_LIST.getD jungsung_idx 'ㅏ'],
     JONGSUNG_LIST.getD jongsung_idx [])
  else ([c], [], [])

/-- `compose(chosung, jungsung, jongsung='')`: recombine jamo strings into a
syllable; if chosung/jungsung are not dictionary keys, return the plain
concatenation.  An unknown jongsung maps to index 0 (`dict.get(jong, 0)`). -/
def compose (chosung jungsung jongsung : Str) : Str :=
  if chosung ∈ CHOSUNG_STRS ∧ jungsung ∈ JUNGSUNG_STRS then
    let chosung_idx := CHOSUNG_STRS.indexOf chosung
    let jungsung_idx := JUNGSUNG_STRS.indexOf jungsung
    let jongsung_idx :=
      if jongsung ∈ JONGSUNG_LIST then JONGSUNG_LIST.indexOf jongsung else 0
    [Char.ofNat (HANGUL_BASE + (chosung_idx * 21 + jungsung_idx) * 28 + jongsung_idx)]
  else chosung ++ jungsung ++ jongsung

/-- `decompose_str(text)`: per-character decomposition, omitting an empty
jongsung. -/
def decompose_str : Str → Str
  | [] => []
  | c :: cs =>
    if is_hangul c then
      (decompose c).1 ++ (decompose c).2.1 ++ (decompose c).2.2 ++ decompose_str cs
    else c :: decompose_str cs

/-- `compose_str(jamo_str)`: the left-to-right scanner with one-token
lookahead: a consonant directly followed by a vowel starts the next
syllable and is not taken as the current jongsung. -/
def compose_str : Str → Str
  | [] => []
  | [c] => [c]
  | [c, v] =>
    if c ∈ CHOSUNG_LIST then
      if v ∈ JUNGSUNG_LIST then compose [c] [v] []
      else c :: compose_str [v]
    else c :: compose_str [v]
  | [c, v, t] =>
    if c ∈ CHOSUNG_LIST then
      if v ∈ JUNGSUNG_LIST then
        if t ∈ JONGSUNG_CHARS then compose [c] [v] [t]
        else compose [c] [v] [] ++ compose_str [t]
      else c :: compose_str [v, t]
    else c :: compose_str [v, t]
  | c :: v :: t :: u :: rest =>
    if c ∈ CHOSUNG_LIST then
      if v ∈ JUNGSUNG_LIST then
        if t ∈ JONGSUNG_CHARS then
          if u ∈ JUNGSUNG_LIST then
            compose [c] [v] [] ++ compose_str (t :: u :: rest)
          else
            compose [c] [v] [t] ++ compose_str (u :: rest)
        else compose [c] [v] [] ++ compose_str (t :: u :: rest)
      else c :: compose_str (v :: t :: u :: rest)
    else c :: compose_str (v :: t :: u :: rest)

/-- `get_final_consonant(text)`: jongsung of the last character, `''` if
none or non-Hangul or empty input. -/
def get_final_consonant (text : Str) : Str :=
  match text.getLast? with
  | none => []
  | some c => if is_hangul c then (decompose c).2.2 else []

/-- `has_final_consonant(text)`. -/
def has_final_consonant (text : Str) : Bool :=
  get_final_consonant text ≠ []

/-- `get_vowel(text)`: jungsung of the last character. -/
def get_vowel (text : Str) : Str :=
  match text.getLast? with
  | none => []
  | some c => if is_hangul c then (decompose c).2.1 else []

/-- `is_bright_vowel(vowel)`. -/
def is_bright_vowel (vowel : Str) : Bool :=
  vowel ∈ ([['ㅏ'], ['ㅗ'], ['ㅑ'], ['ㅛ'], ['ㅘ']] : List Str)

/-- `is_dark_vowel(vowel)`. -/
def is_dark_vowel (vowel : Str) : Bool :=
  !is_bright_vowel vowel

/-! ## Python string builtins used by the source

`startswith`, `in` (substring test), `replace`, `rfind`, modelled on
`List Char`.  `replace` is given fuel equal to the text length so that it
is structurally recursive (the source only ever calls it with non-empty
patterns, for which the fuel is always sufficient). -/

/-- `txt.startswith(pat)`. -/
def listStartsWith : Str → Str → Bool
  | _, [] => true
  | [], _ :: _ => false
  | c :: cs, p :: ps => c == p && listStartsWith cs ps

/-- `pat in txt` (substring containment). -/
def containsSeq : Str → Str → Bool
  | [], pat => listStartsWith [] pat
  | c :: rest, pat => listStartsWith (c :: rest) pat || containsSeq rest pat

/-- Fuelled worker for `str.replace(pat, rep)` (all occurrences, left to
right, non-overlapping). -/
def replaceAllFuel : Nat → Str → Str → Str → Str
  | 0, txt, _, _ => txt
  | _ + 1, [], _, _ => []
  | n + 1, c :: rest, pat, rep =>
    if pat ≠ [] ∧ listStartsWith (c :: rest) pat then
      rep ++ replaceAllFuel n (List.drop (pat.length - 1) rest) pat rep
    else c :: replaceAllFuel n rest pat rep

/-- `txt.replace(pat, rep)` for non-empty `pat` (the only way the source
calls it). -/
def replaceAll (txt pat rep : Str) : Str :=
  replaceAllFuel txt.length txt pat rep

/-- `txt.replace(pat, rep, 1)` for non-empty `pat`: first occurrence only. -/
def replaceFirst : Str → Str → Str → Str
  | [], _, _ => []
  | c :: rest, pat, rep =>
    if pat ≠ [] ∧ listStartsWith (c :: rest) pat then
      rep ++ List.drop (pat.length - 1) rest
    else c :: replaceFirst rest pat rep

/-- `txt.rfind(pat)`: start index of the last occurrence. -/
def rfindIdx : Str → Str → Option Nat
  | [], pat => if listStartsWith [] pat then some 0 else none
  | c :: rest, pat =>
    match rfindIdx rest pat with
    | some j => some (j + 1)
    | none => if listStartsWith (c :: rest) pat then some 0 else none

/-! ## rules/vowel_harmony.py -/

/-- `apply_vowel_harmony(stem, ending)`: note that the source returns the
ending unchanged when the stem has no extractable last vowel. -/
def apply_vowel_harmony (stem ending : Str) : Str :=
  if ending = [] then ending
  else
    let last_vowel := get_vowel stem
    if last_vowel = [] then ending
    else if is_bright_vowel last_vowel then
      replaceAll (replaceAll (replaceAll ending ['어'] ['아']) ['여'] ['야']) ['에'] ['애']
    else
      replaceAll (replaceAll (replaceAll ending ['아'] ['어']) ['야'] ['여']) ['애'] ['에']

/-- `get_harmonized_vowel(stem)`. -/
def get_harmonized_vowel (stem : Str) : Str :=
  if get_vowel stem = [] then ['어']
  else if is_bright_vowel (get_vowel stem) then ['아'] else ['어']

/-! ## rules/contraction.py -/

/-- The `for pattern in exception_patterns` loop of
`apply_regular_contraction`: returns `true` when some exception pattern
occurs with its last occurrence within the last 6 positions (`pos >=
len - 6`, which over Python ints is `pos + 6 >= len`). -/
def regular_contraction_exception : Str → List Str → Bool
  | _, [] => false
  | jamo, p :: ps =>
    if containsSeq jamo p then
      match rfindIdx jamo p with
      | some pos =>
        if pos + 6 ≥ jamo.length then true
        else regular_contraction_exception jamo ps
      | none => regular_contraction_exception jamo ps
    else regular_contraction_exception jamo ps

/-- `apply_regular_contraction(jamo_str)`. -/
def apply_regular_contraction (jamo : Str) : Str :=
  if regular_contraction_exception jamo
      [['ㄱ', 'ㅣ'], ['ㅁ', 'ㅣ'], ['ㅂ', 'ㅣ'], ['ㄸ', 'ㅣ']] then jamo
  else
    replaceAll (replaceAll (replaceAll jamo
      ['ㅣ', 'ㅓ'] ['ㅕ']) ['ㅜ', 'ㅓ'] ['ㅝ']) ['ㅗ', 'ㅏ'] ['ㅘ']

/-- `apply_b_irregular_contraction(jamo_str)`. -/
def apply_b_irregular_contraction (jamo : Str) : Str :=
  replaceAll (replaceAll jamo ['ㅗ', 'ㅏ'] ['ㅘ']) ['ㅜ', 'ㅓ'] ['ㅝ']

/-- The `for vowel in vowels` loop of `apply_reo_irregular_contraction`. -/
def reo_contraction_loop : Str → List Char → Str
  | s, [] => s
  | s, v :: vs => reo_contraction_loop (replaceAll s ['ㄹ', 'ㅇ', v] ['ㄹ', v]) vs

/-- `apply_reo_irregular_contraction(jamo_str)`. -/
def apply_reo_irregular_contraction (jamo : Str) : Str :=
  reo_contraction_loop jamo
    ['ㅏ', 'ㅓ', 'ㅗ', 'ㅜ', 'ㅡ', 'ㅣ', 'ㅐ', 'ㅔ', 'ㅚ', 'ㅟ', 'ㅢ']

/-- `apply_h_irregular_contraction(jamo_str)`. -/
def apply_h_irregular_contraction (jamo : Str) : Str :=
  replaceAll (replaceAll jamo ['ㅏ', 'ㅇ', 'ㅏ'] ['ㅐ']) ['ㅓ', 'ㅇ', 'ㅓ'] ['ㅔ']

/-- `apply_ida_contraction(jamo_str)`. -/
def apply_ida_contraction (jamo : Str) : Str :=
  replaceAll (replaceAll (replaceAll jamo
    ['ㅇ', 'ㅣ', 'ㅓ'] ['ㅇ', 'ㅕ']) ['ㅇ', 'ㅣ', 'ㅔ'] ['ㅇ', 'ㅖ']) ['ㅇ', 'ㅣ', 'ㅑ'] ['ㅇ', 'ㅑ']

/-- `should_contract(stem, ending)`: the ending parameter is unused in the
source as well. -/
def should_contract (stem _ending : Str) : Bool :=
  !(stem.getLast? == some '기' || stem.getLast? == some '미' ||
    stem.getLast? == some '비' || stem.getLast? == some '띠')

/-! ## rule modules -/

/-- The 22-character first-character list the irregular checks use for
"ending starts with a vowel" (11 bare vowel jamo and 11 null-initial
syllables). -/
def VOWEL_FIRST_22 : List Char :=
  ['ㅏ', 'ㅓ', 'ㅗ', 'ㅜ', 'ㅡ', 'ㅣ', 'ㅐ', 'ㅔ', 'ㅚ', 'ㅟ', 'ㅢ',
   '아', '어', '오', '우', '으', '이', '애', '에', '외', '위', '의']

/-- `ending and ending[0] in VOWEL_FIRST_22`. -/
def firstCharVowel22 : Str → Bool
  | [] => false
  | c :: _ => c ∈ VOWEL_FIRST_22

/-- `'불규칙'`. -/
def BULGYUCHIK : Str := ['불', '규', '칙']

/-! ### rules/l_drop.py -/

/-- `check_l_drop(stem, ending)`. -/
def check_l_drop (stem ending : Str) : Bool :=
  if get_final_consonant stem ≠ ['ㄹ'] then false
  else if listStartsWith ending ['느'] then true
  else
    match ending with
    | c :: _ => c ∈ (['ㄴ', 'ㅂ', 'ㅅ', 'ㅁ'] : List Char)
    | [] => false

/-- `apply_l_drop(stem, ending)`. -/
def apply_l_drop (stem ending : Str) : Option Str :=
  if ¬check_l_drop stem ending then none
  else
    let jamo_stem := decompose_str stem
    let jamo_stem :=
      if jamo_stem.getLast? = some 'ㄹ' then jamo_stem.dropLast else jamo_stem
    let jamo_ending :=
      match ending with
      | c :: _ =>
        if c ∈ (['ㄴ', 'ㅂ', 'ㅅ', 'ㅁ'] : List Char) then 'ㅡ' :: ending
        else decompose_str ending
      | [] => decompose_str ending
    some (compose_str (jamo_stem ++ jamo_ending))

/-! ### rules/ida.py -/

/-- `check_ida(stem)`. -/
def check_ida (stem : Str) : Bool :=
  stem = ['이']

/-- `apply_ida_conjugation(prev_word, stem, ending)`; a missing or empty
`prev_word` counts as "has a final consonant". -/
def apply_ida_conjugation (prev_word : Option Str) (stem ending : Str) : Option Str :=
  if ¬check_ida stem then none
  else
    let has_consonant :=
      match prev_word with
      | none => true
      | some p => if p = [] then true else has_final_consonant p
    if has_consonant then
      some (compose_str (decompose_str stem ++ decompose_str ending))
    else
      some (compose_str (apply_ida_contraction (decompose_str stem ++ decompose_str ending)))

/-! ### rules/irregular_s.py -/

/-- `check_s_irregular(stem, ending, tag)`: both the tagged and the untagged
branch of the source return `True`, so the tag is semantically unused
("default: assume irregular if conditions met"). -/
def check_s_irregular (stem ending : Str) (_tag : Option Str) : Bool :=
  if get_final_consonant stem ≠ ['ㅅ'] then false
  else if ¬firstCharVowel22 ending then false
  else true

/-- `apply_s_irregular(stem, ending)`. -/
def apply_s_irregular (stem ending : Str) : Str :=
  let harmonized_ending := apply_vowel_harmony stem ending
  let jamo_stem := decompose_str stem
  let jamo_stem :=
    if jamo_stem.getLast? = some 'ㅅ' then jamo_stem.dropLast else jamo_stem
  compose_str (jamo_stem ++ decompose_str harmonized_ending)

/-! ### rules/irregular_d.py -/

/-- `check_d_irregular(stem, ending, tag)`. -/
def check_d_irregular (stem ending : Str) (tag : Option Str) : Bool :=
  if get_final_consonant stem ≠ ['ㄷ'] then false
  else if ¬firstCharVowel22 ending then false
  else
    match tag with
    | some t => t ≠ [] && containsSeq t ['ㄷ'] && containsSeq t BULGYUCHIK
    | none => false

/-- `apply_d_irregular(stem, ending)`: `stem[-1]` is only evaluated for a
non-empty stem (guaranteed by `check_d_irregular` at every call site);
the empty-stem case, on which the source would raise, is given the value
`[]`. -/
def apply_d_irregular (stem ending : Str) : Str :=
  let harmonized_ending := apply_vowel_harmony stem ending
  match stem.getLast? with
  | none => []
  | some last_char =>
    let d := decompose last_char
    let new_last_char := compose d.1 d.2.1 ['ㄹ']
    stem.dropLast ++ new_last_char ++ harmonized_ending

/-! ### rules/irregular_b.py -/

/-- `count_syllables(text)`. -/
def count_syllables (text : Str) : Nat :=
  (text.filter (fun c => is_hangul c)).length

/-- `check_b_irregular(stem, ending, tag)`. -/
def check_b_irregular (stem ending : Str) (tag : Option Str) : Bool :=
  if get_final_consonant stem ≠ ['ㅂ'] then false
  else if ¬firstCharVowel22 ending then false
  else
    match tag with
    | some t => t ≠ [] && containsSeq t ['ㅂ'] && containsSeq t BULGYUCHIK
    | none => false

/-- `apply_b_irregular(stem, ending)` (empty stem, on which the source
would raise at `stem[-1]`, is given the value `[]`; every call site is
guarded by `check_b_irregular`). -/
def apply_b_irregular (stem ending : Str) : Str :=
  let inserted_vowel :=
    if count_syllables stem ≤ 1 then
      if get_harmonized_vowel stem = ['아'] then ['오'] else ['우']
    else ['우']
  match stem.getLast? with
  | none => []
  | some last_char =>
    let d := decompose last_char
    let new_stem := stem.dropLast ++ compose d.1 d.2.1 []
    let jamo_combined :=
      decompose_str new_stem ++ decompose_str inserted_vowel ++ decompose_str ending
    compose_str (apply_b_irregular_contraction jamo_combined)

/-! ### rules/irregular_reo.py -/

/-- `check_reo_irregular(stem, ending, tag)`. -/
def check_reo_irregular (stem ending : Str) (tag : Option Str) : Bool :=
  if get_final_consonant stem ≠ [] then false
  else if ¬(stem.getLast? == some '르') then false
  else if ¬firstCharVowel22 ending then false
  else
    match tag with
    | some t => t ≠ [] && containsSeq t ['러'] && containsSeq t BULGYUCHIK
    | none => false

/-- `apply_reo_irregular(stem, ending)`. -/
def apply_reo_irregular (stem ending : Str) : Str :=
  let base_stem := stem.dropLast
  let jamo_ending :=
    decompose_str (if ending.length > 1 then '러' :: ending.drop 1 else ['러'])
  let jamo_combined := decompose_str base_stem ++ ['ㄹ'] ++ jamo_ending
  compose_str (apply_reo_irregular_contraction jamo_combined)

/-! ### rules/irregular_h.py -/

/-- `check_h_irregular(stem, ending, tag)`: as with the ㅅ rule, both the
tagged and the untagged branch return `True` ("default to irregular for
ㅎ-final adjectives except 좋다"). -/
def check_h_irregular (stem ending : Str) (_tag : Option Str) : Bool :=
  if get_final_consonant stem ≠ ['ㅎ'] then false
  else if stem = ['좋'] then false
  else if ¬firstCharVowel22 ending then false
  else true

/-- `apply_h_irregular(stem, ending)` (empty-stem case as in
`apply_b_irregular`). -/
def apply_h_irregular (stem ending : Str) : Str :=
  let harmonized_ending := apply_vowel_harmony stem ending
  match stem.getLast? with
  | none => []
  | some last_char =>
    let d := decompose last_char
    let new_stem := stem.dropLast ++ compose d.1 d.2.1 []
    let jamo_combined := decompose_str new_stem ++ decompose_str harmonized_ending
    compose_str (apply_h_irregular_contraction jamo_combined)

/-! ### rules/irregular_u.py -/

/-- `check_u_irregular(stem, ending)`. -/
def check_u_irregular (stem ending : Str) : Bool :=
  stem = ['푸'] && listStartsWith ending ['어']

/-- `apply_u_irregular(stem, ending)`. -/
def apply_u_irregular (stem ending : Str) : Option Str :=
  if ¬check_u_irregular stem ending then none
  else some ('퍼' :: ending.drop 1)

/-! ### rules/irregular_yeo.py -/

/-- `check_yeo_irregular(stem, ending, tag)`: an empty tag is falsy and so
passes the `tag not in ['VV','XSV']` filter. -/
def check_yeo_irregular (stem ending : Str) (tag : Option Str) : Bool :=
  if stem ≠ ['하'] then false
  else if ¬(listStartsWith ending ['어'] || listStartsWith ending ['아']) then false
  else
    match tag with
    | some t => t = [] || t = ['V', 'V'] || t = ['X', 'S', 'V']
    | none => true

/-- `apply_yeo_irregular(stem, ending)`: the first computation of `result`
is overwritten whenever the ending starts with 어 or 아. -/
def apply_yeo_irregular (stem ending : Str) : Option Str :=
  if stem ≠ ['하'] then none
  else
    let result0 := replaceFirst ending ['어'] ['애']
    let result1 :=
      if listStartsWith result0 ['애'] then ['해'] else '하' :: result0
    if listStartsWith ending ['어'] then some ('해' :: ending.drop 1)
    else if listStartsWith ending ['아'] then some ('해' :: ending.drop 1)
    else some result1

/-! ### rules/irregular_reu.py -/

/-- The 르-irregular stem dictionary.  The repository contains no
`data/reu_irregular_stems.txt`, so `load_reu_irregular_stems` takes its
`FileNotFoundError` branch and returns the built-in default set. -/
def REU_IRREGULAR_STEMS : List Str :=
  [['흐', '르'], ['따', '르'], ['부', '르'], ['오', '르'], ['치', '르'],
   ['고', '르'], ['누', '르'], ['자', '르'], ['모', '르'], ['이', '르'], ['다', '르']]

/-- `check_reu_irregular(stem, ending)`. -/
def check_reu_irregular (stem ending : Str) : Bool :=
  if stem ∉ REU_IRREGULAR_STEMS then false
  else if ¬(stem.getLast? == some '르') then false
  else if ¬firstCharVowel22 ending then false
  else true

/-- `apply_reu_irregular(stem, ending)`. -/
def apply_reu_irregular (stem ending : Str) : Str :=
  let harmonized_ending := apply_vowel_harmony stem ending
  let base_stem := stem.dropLast
  let jamo_combined :=
    decompose_str base_stem ++ ['ㄹ'] ++ ['ㄹ'] ++ decompose_str harmonized_ending
  compose_str jamo_combined

/-! ### rules/eu_drop.py (and the identical helper in rules/regular.py) -/

/-- The 17-character vowel jamo list of `is_vowel_initial_ending`. -/
def VOWEL_JAMO_17 : List Char :=
  ['ㅏ', 'ㅓ', 'ㅗ', 'ㅜ', 'ㅡ', 'ㅣ', 'ㅐ', 'ㅔ', 'ㅚ', 'ㅟ', 'ㅢ',
   'ㅑ', 'ㅕ', 'ㅛ', 'ㅠ', 'ㅒ', 'ㅖ']

/-- `is_vowel_initial_ending(ending)` as defined in `rules/regular.py` and
`rules/eu_drop.py`. -/
def is_vowel_initial_ending : Str → Bool
  | [] => false
  | c :: _ =>
    if c ∈ VOWEL_JAMO_17 then true
    else if is_hangul c then (decompose c).1 = ['ㅇ'] else false

/-- `check_eu_drop(stem, ending)`. -/
def check_eu_drop (stem ending : Str) : Bool :=
  if get_final_consonant stem ≠ [] then false
  else if get_vowel stem ≠ ['ㅡ'] then false
  else if ¬is_vowel_initial_ending ending then false
  else true

/-- `apply_eu_drop(stem, ending)`. -/
def apply_eu_drop (stem ending : Str) : Str :=
  let harmonized_ending := apply_vowel_harmony stem ending
  let jamo_stem := decompose_str stem
  let jamo_stem :=
    if jamo_stem.getLast? = some 'ㅡ' then jamo_stem.dropLast else jamo_stem
  let jamo_ending := decompose_str harmonized_ending
  let jamo_ending :=
    match jamo_ending with
    | 'ㅇ' :: rest => rest
    | l => l
  compose_str (apply_regular_contraction (jamo_stem ++ jamo_ending))

/-! ### rules/regular.py -/

/-- `apply_regular_conjugation(stem, ending)`. -/
def apply_regular_conjugation (stem ending : Str) : Str :=
  match ending with
  | [] => stem
  | first_char :: rest_ending =>
    if is_consonant_jamo first_char then
      if get_final_consonant stem ≠ [] then
        compose_str (decompose_str stem ++ ['ㅇ', 'ㅡ', first_char]) ++ rest_ending
      else
        compose_str (decompose_str stem ++ [first_char]) ++ rest_ending
    else if is_vowel_initial_ending ending then
      let harmonized_ending := apply_vowel_harmony stem ending
      let jamo_combined := decompose_str stem ++ decompose_str harmonized_ending
      let jamo_contracted :=
        if should_contract stem ending then apply_regular_contraction jamo_combined
        else jamo_combined
      compose_str jamo_contracted
    else stem ++ ending

/-! ## conjugator.py -/

/-- `KoreanConjugator._is_incomplete_consonant_ending(ending)`. -/
def is_incomplete_consonant_ending : Str → Bool
  | [c] => c ∈ (['ㄱ', 'ㄴ', 'ㄷ', 'ㄹ', 'ㅁ', 'ㅂ', 'ㅅ', 'ㅇ', 'ㅈ', 'ㅊ', 'ㅋ',
                 'ㅌ', 'ㅍ', 'ㅎ'] : List Char)
  | _ => false

/-- The 11-character vowel jamo list used in `_is_consonant_ending` and
`_is_vowel_ending`. -/
def VOWEL_JAMO_11 : List Char :=
  ['ㅏ', 'ㅓ', 'ㅗ', 'ㅜ', 'ㅡ', 'ㅣ', 'ㅐ', 'ㅔ', 'ㅚ', 'ㅟ', 'ㅢ']

/-- `KoreanConjugator._is_consonant_ending(ending)`. -/
def is_consonant_ending : Str → Bool
  | [] => false
  | c :: _ =>
    if c.toNat < 0xAC00 then false
    else if c ∈ VOWEL_JAMO_11 then false
    else (decompose c).1 ≠ ['ㅇ']

/-- `KoreanConjugator._is_vowel_ending(ending)`. -/
def is_vowel_ending : Str → Bool
  | [] => false
  | c :: _ =>
    if c ∈ VOWEL_JAMO_11 then true
    else if 0xAC00 ≤ c.toNat then (decompose c).1 = ['ㅇ']
    else false

/-- `KoreanConjugator._has_irregular_tag(tag)`. -/
def has_irregular_tag (tag : Str) : Bool :=
  containsSeq tag ('ㅅ' :: BULGYUCHIK) || containsSeq tag ('ㄷ' :: BULGYUCHIK) ||
  containsSeq tag ('ㅂ' :: BULGYUCHIK) || containsSeq tag ('러' :: BULGYUCHIK) ||
  containsSeq tag ('ㅎ' :: BULGYUCHIK)

/-- `KoreanConjugator._apply_tagged_irregular(stem, ending, tag)`: each of
the five source blocks returns only when both its substring test and its
`check` succeed, otherwise control falls to the next block. -/
def apply_tagged_irregular (stem ending tag : Str) : Option Str :=
  if (containsSeq tag ('ㅅ' :: BULGYUCHIK) || containsSeq tag ['ㅅ']) &&
      check_s_irregular stem ending (some tag) then
    some (apply_s_irregular stem ending)
  else if (containsSeq tag ('ㄷ' :: BULGYUCHIK) || containsSeq tag ['ㄷ']) &&
      check_d_irregular stem ending (some tag) then
    some (apply_d_irregular stem ending)
  else if (containsSeq tag ('ㅂ' :: BULGYUCHIK) || containsSeq tag ['ㅂ']) &&
      check_b_irregular stem ending (some tag) then
    some (apply_b_irregular stem ending)
  else if (containsSeq tag ('러' :: BULGYUCHIK) || containsSeq tag ['러']) &&
      check_reo_irregular stem ending (some tag) then
    some (apply_reo_irregular stem ending)
  else if (containsSeq tag ('ㅎ' :: BULGYUCHIK) || containsSeq tag ['ㅎ']) &&
      check_h_irregular stem ending (some tag) then
    some (apply_h_irregular stem ending)
  else none

/-- Python's `result = ...; if result: return result` idiom: take the rule's
result when it is neither `None` nor the empty string, otherwise fall
through to the continuation. -/
def pickT (o : Option Str) (k : Str) : Str :=
  match o with
  | none => k
  | some r => if r = [] then k else r

/-- The `if tag and self._has_irregular_tag(tag): result =
self._apply_tagged_irregular(...)` step of `conjugate`: a missing or
empty tag, or one without an irregular marker, contributes nothing. -/
def tagged_option (stem ending : Str) (tag : Option Str) : Option Str :=
  match tag with
  | some t =>
    if t ≠ [] ∧ has_irregular_tag t then apply_tagged_irregular stem ending t else none
  | none => none

/-- `KoreanConjugator.conjugate(stem, ending, tag=None, prev_word=None)`. -/
def conjugate (stem ending : Str) (tag prev_word : Option Str) : Str :=
  if stem = [] ∨ ending = [] then (if stem = [] then [] else stem)
  else
    pickT (if check_l_drop stem ending then apply_l_drop stem ending else none)
     (pickT (if check_ida stem then apply_ida_conjugation prev_word stem ending else none)
      (if is_incomplete_consonant_ending ending then apply_regular_conjugation stem ending
       else if is_consonant_ending ending then apply_regular_conjugation stem ending
       else if is_vowel_ending ending then
         pickT (tagged_option stem ending tag)
          (pickT (if check_u_irregular stem ending then apply_u_irregular stem ending else none)
           (pickT (if check_yeo_irregular stem ending tag then apply_yeo_irregular stem ending
                   else none)
            (pickT (if check_reu_irregular stem ending then some (apply_reu_irregular stem ending)
                    else none)
             (pickT (if check_eu_drop stem ending then some (apply_eu_drop stem ending) else none)
              (apply_regular_conjugation stem ending)))))
       else apply_regular_conjugation stem ending))

/-! # Lemmas -/

/-! ## Jamo table facts (established by evaluation) -/

lemma chosung_getD_mem : ∀ i < 19, CHOSUNG_LIST.getD i 'ㄱ' ∈ CHOSUNG_LIST := by decide

lemma jungsung_getD_mem : ∀ i < 21, JUNGSUNG_LIST.getD i 'ㅏ' ∈ JUNGSUNG_LIST := by decide

lemma chosung_strs_getD_mem : ∀ i < 19, [CHOSUNG_LIST.getD i 'ㄱ'] ∈ CHOSUNG_STRS := by decide

lemma jungsung_strs_getD_mem : ∀ i < 21, [JUNGSUNG_LIST.getD i 'ㅏ'] ∈ JUNGSUNG_STRS := by decide

lemma chosung_indexOf_getD :
    ∀ i < 19, CHOSUNG_STRS.indexOf [CHOSUNG_LIST.getD i 'ㄱ'] = i := by decide

lemma jungsung_indexOf_getD :
    ∀ i < 21, JUNGSUNG_STRS.indexOf [JUNGSUNG_LIST.getD i 'ㅏ'] = i := by decide

lemma jongsung_getD_mem : ∀ i < 28, JONGSUNG_LIST.getD i [] ∈ JONGSUNG_LIST := by decide

lemma jongsung_indexOf_getD :
    ∀ i < 28, JONGSUNG_LIST.indexOf (JONGSUNG_LIST.getD i []) = i := by decide

lemma jongsung_getD_char :
    ∀ i < 28, i ≠ 0 →
      JONGSUNG_LIST.getD i [] = [(JONGSUNG_LIST.getD i []).headD 'ㄱ'] ∧
      (JONGSUNG_LIST.getD i []).headD 'ㄱ' ∈ JONGSUNG_CHARS := by decide

lemma chosung_is_jamo : ∀ c ∈ CHOSUNG_LIST, is_jamo c = true := by decide

lemma jungsung_is_jamo : ∀ c ∈ JUNGSUNG_LIST, is_jamo c = true := by decide

lemma jongsung_is_jamo : ∀ c ∈ JONGSUNG_CHARS, is_jamo c = true := by decide

lemma chosung_not_jungsung : ∀ c ∈ CHOSUNG_LIST, c ∉ JUNGSUNG_LIST := by decide

/-! ## Codec round trip, single syllable -/

/-- A Hangul syllable decomposes into in-range list entries whose indices
reconstruct its code point. -/
lemma decompose_spec (c : Char) (h : is_hangul c = true) :
    ∃ ci ji ki, ci < 19 ∧ ji < 21 ∧ ki < 28 ∧
      (decompose c).1 = [CHOSUNG_LIST.getD ci 'ㄱ'] ∧
      (decompose c).2.1 = [JUNGSUNG_LIST.getD ji 'ㅏ'] ∧
      (decompose c).2.2 = JONGSUNG_LIST.getD ki [] ∧
      c.toNat = HANGUL_BASE + (ci * 21 + ji) * 28 + ki := by
  have hb : HANGUL_BASE ≤ c.toNat ∧ c.toNat ≤ HANGUL_END := by
    simpa [is_hangul, decide_eq_true_eq] using h
  refine ⟨((c.toNat - HANGUL_BASE - (c.toNat - HANGUL_BASE) % 28) / 28) / 21,
          ((c.toNat - HANGUL_BASE - (c.toNat - HANGUL_BASE) % 28) / 28) % 21,
          (c.toNat - HANGUL_BASE) % 28, ?_, ?_, ?_, ?_, ?_, ?_, ?_⟩
  · have := hb.1; have := hb.2
    simp only [HANGUL_BASE, HANGUL_END] at *
    omega
  · omega
  · omega
  · simp [decompose, h]
  · simp [decompose, h]
  · simp [decompose, h]
  · have h1 := hb.1; have h2 := hb.2
    simp only [HANGUL_BASE, HANGUL_END] at *
    omega

/-- Single-syllable codec round trip. -/
lemma compose_decompose (c : Char) (h : is_hangul c = true) :
    compose (decompose c).1 (decompose c).2.1 (decompose c).2.2 = [c] := by
  obtain ⟨ci, ji, ki, hci, hji, hki, h1, h2, h3, hrec⟩ := decompose_spec c h
  rw [h1, h2, h3]
  unfold compose
  rw [if_pos ⟨chosung_strs_getD_mem ci hci, jungsung_strs_getD_mem ji hji⟩]
  rw [if_pos (jongsung_getD_mem ki hki)]
  rw [chosung_indexOf_getD ci hci, jungsung_indexOf_getD ji hji,
      jongsung_indexOf_getD ki hki]
  show [Char.ofNat (HANGUL_BASE + (ci * 21 + ji) * 28 + ki)] = [c]
  rw [← hrec, Char.ofNat_toNat]

/-! ## String-level round trip -/

lemma compose_ne_nil (a b : Char) (j : Str) : compose [a] [b] j ≠ [] := by
  unfold compose
  split <;> simp

lemma decompose_fst_ne_nil (c : Char) : (decompose c).1 ≠ [] := by
  unfold decompose
  split <;> simp

lemma decompose_str_ne_nil (l : Str) (h : l ≠ []) : decompose_str l ≠ [] := by
  match l with
  | [] => exact absurd rfl h
  | c :: cs =>
    unfold decompose_str
    split
    · simp [decompose_fst_ne_nil]
    · simp

lemma decompose_str_nil_iff (l : Str) : decompose_str l = [] ↔ l = [] := by
  constructor
  · intro h
    by_contra hne
    exact decompose_str_ne_nil l hne h
  · intro h
    subst h
    rfl

/-- Scanner step for a head character that is not an initial consonant. -/
lemma compose_str_cons_notcho (c : Char) (r : Str) (hc : c ∉ CHOSUNG_LIST) :
    compose_str (c :: r) = c :: compose_str r := by
  match r with
  | [] => rfl
  | [v] => simp [compose_str, hc]
  | [v, t] => simp [compose_str, hc]
  | v :: t :: u :: rest => simp [compose_str, hc]

/-- Scanner step for an open syllable: the initial+vowel pair is composed
without a final consonant whenever the next token cannot be taken as one
(absent, not a jongsung character, or followed by a vowel). -/
lemma compose_str_cons_open (a b : Char) (r : Str)
    (ha : a ∈ CHOSUNG_LIST) (hb : b ∈ JUNGSUNG_LIST)
    (hr : r = [] ∨ (∃ t r', r = t :: r' ∧
      (t ∉ JONGSUNG_CHARS ∨ (∃ u r'', r' = u :: r'' ∧ u ∈ JUNGSUNG_LIST)))) :
    compose_str (a :: b :: r) = compose [a] [b] [] ++ compose_str r := by
  rcases hr with rfl | ⟨t, r', rfl, ht⟩
  · simp [compose_str, ha, hb]
  · rcases ht with ht | ⟨u, r'', rfl, hu⟩
    · match r' with
      | [] => simp [compose_str, ha, hb, ht]
      | u :: r'' => simp [compose_str, ha, hb, ht]
    · by_cases htj : t ∈ JONGSUNG_CHARS
      · simp [compose_str, ha, hb, htj, hu]
      · simp [compose_str, ha, hb, htj]

/-- Scanner step for a closed syllable: the following jongsung character is
consumed whenever the token after it is not a vowel. -/
lemma compose_str_cons_closed (a b t : Char) (r : Str)
    (ha : a ∈ CHOSUNG_LIST) (hb : b ∈ JUNGSUNG_LIST) (ht : t ∈ JONGSUNG_CHARS)
    (hr : r = [] ∨ (∃ u r'', r = u :: r'' ∧ u ∉ JUNGSUNG_LIST)) :
    compose_str (a :: b :: t :: r) = compose [a] [b] [t] ++ compose_str r := by
  rcases hr with rfl | ⟨u, r'', rfl, hu⟩
  · simp [compose_str, ha, hb, ht]
  · simp [compose_str, ha, hb, ht, hu]

/-- Shape of a decomposed good string: empty, or an initial consonant
followed by a vowel, or a pass-through character kept verbatim. -/
lemma decompose_str_shape (l : Str)
    (hl : ∀ c ∈ l, is_hangul c = true ∨ (is_hangul c = false ∧ is_jamo c = false)) :
    decompose_str l = [] ∨
    (∃ a b r, decompose_str l = a :: b :: r ∧ a ∈ CHOSUNG_LIST ∧ b ∈ JUNGSUNG_LIST) ∨
    (∃ a r, decompose_str l = a :: r ∧ is_jamo a = false) := by
  match l with
  | [] => exact Or.inl rfl
  | c :: cs =>
    rcases hl c (List.mem_cons_self c cs) with hc | ⟨hc1, hc2⟩
    · obtain ⟨ci, ji, ki, hci, hji, _, h1, h2, _, _⟩ := decompose_spec c hc
      refine Or.inr (Or.inl ⟨CHOSUNG_LIST.getD ci 'ㄱ', JUNGSUNG_LIST.getD ji 'ㅏ',
        (decompose c).2.2 ++ decompose_str cs, ?_, chosung_getD_mem ci hci,
        jungsung_getD_mem ji hji⟩)
      simp [decompose_str, hc, h1, h2]
    · refine Or.inr (Or.inr ⟨c, decompose_str cs, ?_, hc2⟩)
      simp [decompose_str, hc1]

/-- String-level codec round trip over Hangul syllables and pass-through
characters. -/
lemma compose_decompose_str (l : Str)
    (hl : ∀ c ∈ l, is_hangul c = true ∨ (is_hangul c = false ∧ is_jamo c = false)) :
    compose_str (decompose_str l) = l := by
  induction l with
  | nil => rfl
  | cons c cs ih =>
    have hcs : ∀ x ∈ cs, is_hangul x = true ∨ (is_hangul x = false ∧ is_jamo x = false) :=
      fun x hx => hl x (List.mem_cons_of_mem c hx)
    have ih' := ih hcs
    rcases hl c (List.mem_cons_self c cs) with hc | ⟨hc1, hc2⟩
    · -- Hangul syllable head
      obtain ⟨ci, ji, ki, hci, hji, hki, h1, h2, h3, _⟩ := decompose_spec c hc
      have hcomp := compose_decompose c hc
      have hds : decompose_str (c :: cs) =
          (decompose c).1 ++ (decompose c).2.1 ++ (decompose c).2.2 ++ decompose_str cs := by
        simp [decompose_str, hc]
      by_cases hki0 : ki = 0
      · -- open syllable: no jongsung emitted
        have h3' : (decompose c).2.2 = [] := by
          rw [h3, hki0]; rfl
        rw [h1, h2, h3'] at hds hcomp
        rw [hds]
        simp only [List.nil_append, List.cons_append, List.append_nil]
        have hstep : compose_str (CHOSUNG_LIST.getD ci 'ㄱ' :: JUNGSUNG_LIST.getD ji 'ㅏ' ::
            decompose_str cs) =
            compose [CHOSUNG_LIST.getD ci 'ㄱ'] [JUNGSUNG_LIST.getD ji 'ㅏ'] [] ++
            compose_str (decompose_str cs) := by
          apply compose_str_cons_open _ _ _ (chosung_getD_mem ci hci) (jungsung_getD_mem ji hji)
          rcases decompose_str_shape cs hcs with hsh | ⟨a, b, r, hsh, hmem1, hmem2⟩ |
            ⟨a, r, hsh, hja⟩
          · exact Or.inl hsh
          · exact Or.inr ⟨a, b :: r, hsh, Or.inr ⟨b, r, rfl, hmem2⟩⟩
          · refine Or.inr ⟨a, r, hsh, Or.inl fun hmem => ?_⟩
            rw [jongsung_is_jamo a hmem] at hja
            cases hja
        rw [hstep, hcomp, ih']
        rfl
      · -- closed syllable: a jongsung character is emitted
        obtain ⟨hjt, htmem⟩ := jongsung_getD_char ki hki hki0
        set t := (JONGSUNG_LIST.getD ki []).headD 'ㄱ' with hts
        have h3' : (decompose c).2.2 = [t] := by rw [h3, hjt]
        rw [h1, h2, h3'] at hds hcomp
        rw [hds]
        simp only [List.nil_append, List.cons_append, List.append_nil]
        have hstep : compose_str (CHOSUNG_LIST.getD ci 'ㄱ' :: JUNGSUNG_LIST.getD ji 'ㅏ' ::
            t :: decompose_str cs) =
            compose [CHOSUNG_LIST.getD ci 'ㄱ'] [JUNGSUNG_LIST.getD ji 'ㅏ'] [t] ++
            compose_str (decompose_str cs) := by
          apply compose_str_cons_closed _ _ _ _ (chosung_getD_mem ci hci)
            (jungsung_getD_mem ji hji) htmem
          rcases decompose_str_shape cs hcs with hsh | ⟨a, b, r, hsh, hmem1, hmem2⟩ |
            ⟨a, r, hsh, hja⟩
          · exact Or.inl hsh
          · exact Or.inr ⟨a, b :: r, hsh, chosung_not_jungsung a hmem1⟩
          · refine Or.inr ⟨a, r, hsh, fun hmem => ?_⟩
            rw [jungsung_is_jamo a hmem] at hja
            cases hja
        rw [hstep, hcomp, ih']
        rfl
    · -- pass-through head
      have hds : decompose_str (c :: cs) = c :: decompose_str cs := by
        simp [decompose_str, hc1]
      have hnc : c ∉ CHOSUNG_LIST := fun hmem => by
        rw [chosung_is_jamo c hmem] at hc2
        cases hc2
      rw [hds, compose_str_cons_notcho c _ hnc, ih']

lemma compose_str_ne_nil (l : Str) (h : l ≠ []) : compose_str l ≠ [] := by
  match l with
  | [c] => simp [compose_str]
  | [c, v] =>
    simp only [compose_str]
    split_ifs <;> simp [compose_ne_nil]
  | [c, v, t] =>
    simp only [compose_str]
    split_ifs <;> simp [compose_ne_nil]
  | c :: v :: t :: u :: rest =>
    simp only [compose_str]
    split_ifs <;> simp [compose_ne_nil]

/-! ## `str.replace` with a single-character pattern is a character map -/

lemma replaceAllFuel_single (n : Nat) (l : Str) (hn : l.length ≤ n) (a b : Char) :
    replaceAllFuel n l [a] [b] = l.map (fun c => if c = a then b else c) := by
  induction n generalizing l with
  | zero =>
    match l with
    | [] => rfl
    | c :: cs => exact absurd hn (by simp)
  | succ n ih =>
    match l with
    | [] => rfl
    | c :: rest =>
      have hrest : rest.length ≤ n := by
        simp only [List.length_cons] at hn
        omega
      simp only [replaceAllFuel]
      by_cases hca : c = a
      · rw [if_pos ⟨by simp, by simp [listStartsWith, hca]⟩]
        show [b] ++ replaceAllFuel n (List.drop 0 rest) [a] [b] = _
        rw [List.drop_zero, ih rest hrest]
        simp [hca]
      · rw [if_neg (by simp [listStartsWith, hca])]
        rw [ih rest hrest]
        simp [hca]

lemma replaceAll_single (l : Str) (a b : Char) :
    replaceAll l [a] [b] = l.map (fun c => if c = a then b else c) :=
  replaceAllFuel_single l.length l le_rfl a b

/-! # Claim theorems -/

/-- C1: for every Hangul syllable `s` in the codepoint range AC00-D7A3,
`compose(decompose(s)) == s`; and for every string made up solely of
Hangul syllables and pass-through (non-Hangul, non-jamo) characters,
`compose_str(decompose_str(s)) == s`, the pass-through characters being
emitted verbatim in place. -/
theorem c1_codec_roundtrip :
    (∀ c : Char, is_hangul c = true →
      compose (decompose c).1 (decompose c).2.1 (decompose c).2.2 = [c]) ∧
    (∀ l : Str,
      (∀ c ∈ l, is_hangul c = true ∨ (is_hangul c = false ∧ is_jamo c = false)) →
      compose_str (decompose_str l) = l) :=
  ⟨compose_decompose, compose_decompose_str⟩

/-- Witness for C1 at the syllable 한 and the mixed string "한!글". -/
theorem c1_codec_roundtrip_witness :
    compose (decompose '한').1 (decompose '한').2.1 (decompose '한').2.2 = ['한'] ∧
    compose_str (decompose_str ['한', '!', '글']) = ['한', '!', '글'] :=
  ⟨c1_codec_roundtrip.1 '한' (by decide), c1_codec_roundtrip.2 ['한', '!', '글'] (by decide)⟩

/-- C3 (divergence witness): on `("이", "었다", None, "나무")` the code
returns 이었다, not the 였다 required by the claim and by the repository's
own test: the contraction pattern `ㅇㅣㅓ` never matches the decomposed
sequence `ㅇㅣㅇㅓ…`, in which the ending's null-initial ㅇ intervenes. -/
theorem c3_ida_contraction_failure :
    conjugate ['이'] ['었', '다'] none (some ['나', '무']) = ['이', '었', '다'] := by
  decide

/-- C4 (divergence witness): the ㅂ-irregular path returns 도오아 and
아름다우어, not the 도와 / 아름다워 required by the claim and the
repository's tests: `apply_b_irregular_contraction`'s patterns `ㅗㅏ`,
`ㅜㅓ` never match the combined jamo sequence, in which the ending's
null-initial ㅇ separates the two vowels. -/
theorem c4_b_irregular_failure :
    conjugate ['돕'] ['아'] (some ['V', 'V', '+', 'ㅂ', '불', '규', '칙']) none =
      ['도', '오', '아'] ∧
    conjugate ['아', '름', '답'] ['어'] (some ['V', 'A', '+', 'ㅂ', '불', '규', '칙']) none =
      ['아', '름', '다', '우', '어'] := by
  decide

/-- C5 (divergence witness): on `("흐르", "어", None, None)` the code
returns 흘ㄹ어, not the 흘러 required by the claim and the repository's own
test: `compose_str` cannot merge the doubled ㄹ with the null-initial
syllable 어 of the decomposed ending. -/
theorem c5_reu_irregular_failure :
    conjugate ['흐', '르'] ['어'] none none = ['흘', 'ㄹ', '어'] := by
  decide

/-- C8 (divergence witness): `check_l_drop("놀", "는")` is false — the
single character 는 does not start with the character 느 — so
`conjugate("놀", "는", None, None)` falls through to plain concatenation
and returns 놀는, not the 노는 required by the claim and the repository's
own test. -/
theorem c8_l_drop_failure :
    check_l_drop ['놀'] ['는'] = false ∧
    conjugate ['놀'] ['는'] none none = ['놀', '는'] := by
  decide

/-- C6 (counterexample): without a tag the ㅎ-irregular transform is *not*
applied: `conjugate("파랗", "아", None, None)` differs from
`conjugate("파랗", "아", "VA+ㅎ불규칙", None)`. -/
theorem c6_h_default_counterexample :
    conjugate ['파', '랗'] ['아'] none none ≠
      conjugate ['파', '랗'] ['아'] (some ['V', 'A', '+', 'ㅎ', '불', '규', '칙']) none := by
  decide

/-- C6 (amended): `check_h_irregular` itself does default to irregular when
no tag is supplied, but `conjugate` consults the ㅎ-irregular rule only
when the tag carries an irregular marker; with the tag the result is 파래,
without it the regular fallback yields 파랗아. -/
theorem c6_h_default_amended :
    check_h_irregular ['파', '랗'] ['아'] none = true ∧
    conjugate ['파', '랗'] ['아'] (some ['V', 'A', '+', 'ㅎ', '불', '규', '칙']) none =
      ['파', '래'] ∧
    conjugate ['파', '랗'] ['아'] none none = ['파', '랗', '아'] := by
  decide

/-- C7 (counterexample): for a stem without an extractable last vowel the
source returns the ending unchanged; the claim's "empty vowel defaults to
dark" would require 아 ↦ 어. -/
theorem c7_harmony_empty_counterexample :
    apply_vowel_harmony [] ['아'] = ['아'] ∧ (['아'] : Str) ≠ ['어'] := by
  decide

/-- C7 (amended): an empty ending is returned unchanged; a stem whose last
vowel is empty also returns the ending *unchanged*; a bright last vowel
replaces every occurrence of 어→아, 여→야, 에→애; a non-empty dark last
vowel applies the reverse replacements. -/
theorem c7_harmony_amended (stem ending : Str) :
    (ending = [] → apply_vowel_harmony stem ending = ending) ∧
    (get_vowel stem = [] → apply_vowel_harmony stem ending = ending) ∧
    (is_bright_vowel (get_vowel stem) = true →
      apply_vowel_harmony stem ending =
        ending.map (fun c =>
          if c = '어' then '아' else if c = '여' then '야'
          else if c = '에' then '애' else c)) ∧
    (get_vowel stem ≠ [] → is_bright_vowel (get_vowel stem) = false →
      apply_vowel_harmony stem ending =
        ending.map (fun c =>
          if c = '아' then '어' else if c = '야' then '여'
          else if c = '애' then '에' else c)) := by
  refine ⟨fun h => by simp [apply_vowel_harmony, h], fun h => ?_, fun h => ?_,
    fun h1 h2 => ?_⟩
  · by_cases he : ending = [] <;> simp [apply_vowel_harmony, he, h]
  · have hv : get_vowel stem ≠ [] := fun hx => by
      rw [hx] at h
      exact absurd h (by decide)
    by_cases he : ending = []
    · simp [apply_vowel_harmony, he]
    · simp only [apply_vowel_harmony, if_neg he, if_neg hv, h, if_true]
      rw [replaceAll_single, replaceAll_single, replaceAll_single,
        List.map_map, List.map_map]
      refine List.map_congr_left fun c _ => ?_
      by_cases h1 : c = '어'
      · subst h1; decide
      by_cases h2 : c = '여'
      · subst h2; decide
      by_cases h3 : c = '에'
      · subst h3; decide
      simp [Function.comp, h1, h2, h3]
  · by_cases he : ending = []
    · simp [apply_vowel_harmony, he]
    · simp only [apply_vowel_harmony, if_neg he, if_neg h1, h2, if_false,
        Bool.false_eq_true]
      rw [replaceAll_single, replaceAll_single, replaceAll_single,
        List.map_map, List.map_map]
      refine List.map_congr_left fun c _ => ?_
      by_cases hc1 : c = '아'
      · subst hc1; decide
      by_cases hc2 : c = '야'
      · subst hc2; decide
      by_cases hc3 : c = '애'
      · subst hc3; decide
      simp [Function.comp, hc1, hc2, hc3]

/-- Witness for C7's amended claim: a dark stem turns 아 into 어. -/
theorem c7_harmony_amended_witness :
    apply_vowel_harmony ['먹'] ['아'] = ['어'] := by
  have h := (c7_harmony_amended ['먹'] ['아']).2.2.2 (by decide) (by decide)
  rw [h]
  decide

/-- C9: `conjugate` returns the empty string when the stem is empty, and
returns a non-empty stem unchanged when the ending is empty. -/
theorem c9_empty_inputs (stem ending : Str) (tag prev : Option Str) :
    (stem = [] → conjugate stem ending tag prev = []) ∧
    (stem ≠ [] → ending = [] → conjugate stem ending tag prev = stem) := by
  constructor
  · intro h
    simp [conjugate, h]
  · intro h1 h2
    simp [conjugate, h1, h2]

/-- Witness for C9 at a concrete ending and a concrete stem. -/
theorem c9_empty_inputs_witness :
    conjugate [] ['어'] none none = [] ∧ conjugate ['가'] [] none none = ['가'] :=
  ⟨(c9_empty_inputs [] ['어'] none none).1 rfl,
   (c9_empty_inputs ['가'] [] none none).2 (by decide) rfl⟩

/-- C10: for the copula stem 이 with a missing or empty preceding word,
`conjugate` behaves as if the preceding word had a final consonant: the
decomposed stem and ending are recomposed by plain concatenation and the
copula contraction table is never applied. -/
theorem c10_ida_no_prev (ending : Str) (prev : Option Str)
    (hprev : prev = none ∨ prev = some []) :
    conjugate ['이'] ending none prev =
      compose_str (decompose_str ['이'] ++ decompose_str ending) := by
  by_cases he : ending = []
  · subst he
    have h : conjugate ['이'] [] none prev = ['이'] := by simp [conjugate]
    rw [h]
    decide
  · have hguard : ¬((['이'] : Str) = [] ∨ ending = []) := by
      rintro (h | h)
      · cases h
      · exact he h
    have hckl : check_l_drop ['이'] ending = false := by
      have hgf : get_final_consonant ['이'] = [] := by decide
      simp [check_l_drop, hgf]
    have harg : decompose_str ['이'] ++ decompose_str ending =
        'ㅇ' :: 'ㅣ' :: decompose_str ending := by
      have hyi : decompose_str ['이'] = ['ㅇ', 'ㅣ'] := by decide
      rw [hyi]
      rfl
    have hres : compose_str (decompose_str ['이'] ++ decompose_str ending) ≠ [] := by
      rw [harg]
      exact compose_str_ne_nil _ (by simp)
    rcases hprev with rfl | rfl <;>
      simp [conjugate, hguard, hckl, check_ida, apply_ida_conjugation, pickT, hres, he]

/-- Witness for C10: `conjugate("이", "다", None, None) = "이다"`. -/
theorem c10_ida_no_prev_witness :
    conjugate ['이'] ['다'] none none = ['이', '다'] := by
  have h := c10_ida_no_prev ['다'] none (Or.inl rfl)
  rw [h]
  decide

/-! ## C2: totality of the dispatcher -/

lemma pickT_eq_cases {o : Option Str} {k v : Str} (hv : v = pickT o k) :
    (∃ r, o = some r ∧ v = r) ∨ v = k := by
  match o with
  | none => exact Or.inr hv
  | some r =>
    by_cases hr : r = []
    · right
      rw [hv]
      simp [pickT, hr]
    · left
      exact ⟨r, rfl, by rw [hv]; simp [pickT, hr]⟩

lemma tagged_option_some {stem ending : Str} {tag : Option Str} {r : Str}
    (h : tagged_option stem ending tag = some r) :
    ∃ t, tag = some t ∧ apply_tagged_irregular stem ending t = some r := by
  match tag with
  | none => simp [tagged_option] at h
  | some t =>
    refine ⟨t, rfl, ?_⟩
    by_cases hc : t ≠ [] ∧ has_irregular_tag t
    · simpa [tagged_option, hc] using h
    · simp [tagged_option, hc] at h

/-- C2: `conjugate` is a total function: for every quadruple of inputs its
value is produced by one of the finitely many dispatcher outcomes — the
two empty-input guards, one of the option-valued rules that fired, or one
of the always-defined rule bodies, with `apply_regular_conjugation` as
the unconditional fallback.  No input can make every path decline. -/
theorem c2_conjugate_total (stem ending : Str) (tag prev : Option Str) :
    conjugate stem ending tag prev = [] ∨
    conjugate stem ending tag prev = stem ∨
    (∃ r, apply_l_drop stem ending = some r ∧ conjugate stem ending tag prev = r) ∨
    (∃ r, apply_ida_conjugation prev stem ending = some r ∧
      conjugate stem ending tag prev = r) ∨
    (∃ t r, tag = some t ∧ apply_tagged_irregular stem ending t = some r ∧
      conjugate stem ending tag prev = r) ∨
    (∃ r, apply_u_irregular stem ending = some r ∧ conjugate stem ending tag prev = r) ∨
    (∃ r, apply_yeo_irregular stem ending = some r ∧ conjugate stem ending tag prev = r) ∨
    conjugate stem ending tag prev = apply_reu_irregular stem ending ∨
    conjugate stem ending tag prev = apply_eu_drop stem ending ∨
    conjugate stem ending tag prev = apply_regular_conjugation stem ending := by
  suffices h : ∀ v : Str, v = conjugate stem ending tag prev →
      (v = [] ∨ v = stem ∨
       (∃ r, apply_l_drop stem ending = some r ∧ v = r) ∨
       (∃ r, apply_ida_conjugation prev stem ending = some r ∧ v = r) ∨
       (∃ t r, tag = some t ∧ apply_tagged_irregular stem ending t = some r ∧ v = r) ∨
       (∃ r, apply_u_irregular stem ending = some r ∧ v = r) ∨
       (∃ r, apply_yeo_irregular stem ending = some r ∧ v = r) ∨
       v = apply_reu_irregular stem ending ∨
       v = apply_eu_drop stem ending ∨
       v = apply_regular_conjugation stem ending) by
    exact h _ rfl
  intro v hv
  unfold conjugate at hv
  by_cases h0 : stem = [] ∨ ending = []
  · rw [if_pos h0] at hv
    by_cases hs : stem = []
    · rw [if_pos hs] at hv
      exact Or.inl hv
    · rw [if_neg hs] at hv
      exact Or.inr (Or.inl hv)
  · rw [if_neg h0] at hv
    rcases pickT_eq_cases hv with ⟨r, hr, hvr⟩ | hv
    · by_cases hck : check_l_drop stem ending
      · rw [if_pos hck] at hr
        exact Or.inr (Or.inr (Or.inl ⟨r, hr, hvr⟩))
      · rw [if_neg hck] at hr
        cases hr
    · rcases pickT_eq_cases hv with ⟨r, hr, hvr⟩ | hv
      · by_cases hck : check_ida stem
        · rw [if_pos hck] at hr
          exact Or.inr (Or.inr (Or.inr (Or.inl ⟨r, hr, hvr⟩)))
        · rw [if_neg hck] at hr
          cases hr
      · by_cases hinc : is_incomplete_consonant_ending ending
        · rw [if_pos hinc] at hv
          exact Or.inr (Or.inr (Or.inr (Or.inr (Or.inr (Or.inr (Or.inr (Or.inr
            (Or.inr hv))))))))
        · rw [if_neg hinc] at hv
          by_cases hcon : is_consonant_ending ending
          · rw [if_pos hcon] at hv
            exact Or.inr (Or.inr (Or.inr (Or.inr (Or.inr (Or.inr (Or.inr (Or.inr
              (Or.inr hv))))))))
          · rw [if_neg hcon] at hv
            by_cases hvow : is_vowel_ending ending
            · rw [if_pos hvow] at hv
              rcases pickT_eq_cases hv with ⟨r, hr, hvr⟩ | hv
              · obtain ⟨t, ht, hat⟩ := tagged_option_some hr
                exact Or.inr (Or.inr (Or.inr (Or.inr (Or.inl ⟨t, r, ht, hat, hvr⟩))))
              · rcases pickT_eq_cases hv with ⟨r, hr, hvr⟩ | hv
                · by_cases hck : check_u_irregular stem ending
                  · rw [if_pos hck] at hr
                    exact Or.inr (Or.inr (Or.inr (Or.inr (Or.inr
                      (Or.inl ⟨r, hr, hvr⟩)))))
                  · rw [if_neg hck] at hr
                    cases hr
                · rcases pickT_eq_cases hv with ⟨r, hr, hvr⟩ | hv
                  · by_cases hck : check_yeo_irregular stem ending tag
                    · rw [if_pos hck] at hr
                      exact Or.inr (Or.inr (Or.inr (Or.inr (Or.inr (Or.inr
                        (Or.inl ⟨r, hr, hvr⟩))))))
                    · rw [if_neg hck] at hr
                      cases hr
                  · rcases pickT_eq_cases hv with ⟨r, hr, hvr⟩ | hv
                    · by_cases hck : check_reu_irregular stem ending
                      · rw [if_pos hck] at hr
                        cases hr
                        exact Or.inr (Or.inr (Or.inr (Or.inr (Or.inr (Or.inr (Or.inr
                          (Or.inl hvr)))))))
                      · rw [if_neg hck] at hr
                        cases hr
                    · rcases pickT_eq_cases hv with ⟨r, hr, hvr⟩ | hv
                      · by_cases hck : check_eu_drop stem ending
                        · rw [if_pos hck] at hr
                          cases hr
                          exact Or.inr (Or.inr (Or.inr (Or.inr (Or.inr (Or.inr (Or.inr
                            (Or.inr (Or.inl hvr))))))))
                        · rw [if_neg hck] at hr
                          cases hr
                      · exact Or.inr (Or.inr (Or.inr (Or.inr (Or.inr (Or.inr (Or.inr
                          (Or.inr (Or.inr hv))))))))
            · rw [if_neg hvow] at hv
              exact Or.inr (Or.inr (Or.inr (Or.inr (Or.inr (Or.inr (Or.inr (Or.inr
                (Or.inr hv))))))))

end Conj
